import Mathlib

set_option maxHeartbeats 2000000
set_option maxRecDepth 8000

/-!
Verification of the numeric core of the bizclaw inference engine
(crates/bizclaw-brain): the IEEE-754 half-precision codec, the FP16 KV
cache with its persistence format, the precomputed RoPE table, and the
online-softmax attention kernels.

The codec and the cache are modelled bit-exactly on natural-number bit
patterns (a u16 is a natural below 2^16, a u32 a natural below 2^32).
The attention kernels and the RoPE rotation, which the source computes
in 32-bit machine floats, are modelled in exact real arithmetic.
-/

/-- Convert an f32 bit pattern to an IEEE-754 half-precision bit pattern,
mirroring fp32_to_fp16 in kv_cache.rs. The trailing mod 65536 is the final
cast of the result to u16 in the source. -/
def fp32_to_fp16 (bits : ℕ) : ℕ :=
  let sign := (bits >>> 16) &&& 0x8000
  let exponent : ℤ := ((bits >>> 23) &&& 0xFF : ℕ)
  let mantissa := bits &&& 0x7FFFFF
  if exponent = 0xFF then
    (sign ||| 0x7C00 ||| (if mantissa ≠ 0 then 0x0200 else 0)) % 65536
  else
    let exp : ℤ := exponent - 127 + 15
    if 31 ≤ exp then (sign ||| 0x7C00) % 65536
    else if exp ≤ 0 then
      if exp < -10 then sign % 65536
      else
        let m := (mantissa ||| 0x800000) >>> (1 - exp).toNat
        (sign ||| (m >>> 13)) % 65536
    else
      (sign ||| (exp.toNat <<< 10) ||| (mantissa >>> 13)) % 65536

/-- The subnormal normalization loop of fp16_to_fp32: shift the mantissa left
until bit 10 is set, incrementing the counter e per shift. The source runs an
unbounded while loop; a fuel of 11 steps always suffices for a nonzero 10-bit
mantissa, so the fuel never changes the modelled behaviour on reachable
inputs. -/
def normalizeLoop : ℕ → ℕ → ℕ → ℕ × ℕ
  | 0, m, e => (m, e)
  | fuel + 1, m, e =>
    if m &&& 0x400 = 0 then normalizeLoop fuel (m <<< 1) (e + 1) else (m, e)

/-- Convert an IEEE-754 half-precision bit pattern to an f32 bit pattern,
mirroring fp16_to_fp32 in kv_cache.rs. -/
def fp16_to_fp32 (value : ℕ) : ℕ :=
  let sign := (value &&& 0x8000) <<< 16
  let exponent := (value >>> 10) &&& 0x1F
  let mantissa := value &&& 0x3FF
  if exponent = 0 then
    if mantissa = 0 then sign
    else
      let p := normalizeLoop 11 mantissa 1
      sign ||| ((127 - 15 + 1 - p.2) <<< 23) ||| ((p.1 &&& 0x3FF) <<< 13)
  else if exponent = 31 then
    sign ||| 0x7F800000 ||| (mantissa <<< 13)
  else
    sign ||| ((exponent + 127 - 15) <<< 23) ||| (mantissa <<< 13)

/-- Numeric value, as an exact rational, of a finite f32 bit pattern
(exponent field below 255), following the IEEE-754 binary32 semantics. -/
def f32Value (bits : ℕ) : ℚ :=
  let s := bits >>> 31
  let e := (bits >>> 23) &&& 0xFF
  let m := bits &&& 0x7FFFFF
  let sgn : ℚ := if s = 1 then -1 else 1
  if e = 0 then sgn * (m : ℚ) / 2 ^ 149
  else sgn * ((2 ^ 23 + m : ℕ) : ℚ) * 2 ^ e / 2 ^ 150

/-- C2: the decoder does NOT reconstruct the exact value of subnormal halves.
The smallest positive subnormal half, pattern 0x0001, has IEEE value
1 * 2 ^ (-24), i.e. f32 pattern 0x33800000; the decoder returns pattern
0x33000000, whose value is 2 ^ (-25) — exactly half the correct value.
The normalization starts its exponent counter at 1 before any shift and
also subtracts that initial 1 from the rebased exponent, an off-by-one. -/
theorem fp16_to_fp32_subnormal_bug :
    fp16_to_fp32 0x0001 = 0x33000000 ∧
    f32Value 0x33000000 = 1 / 2 ^ 25 ∧
    ¬ f32Value (fp16_to_fp32 0x0001) = 1 / 2 ^ 24 := by
  have h1 : fp16_to_fp32 0x0001 = 0x33000000 := by decide
  have h2 : f32Value 0x33000000 = 1 / 2 ^ 25 := by
    have e1 : (0x33000000 : ℕ) >>> 23 &&& 0xFF = 102 := by decide
    have e2 : (0x33000000 : ℕ) >>> 31 = 0 := by decide
    have e3 : (0x33000000 : ℕ) &&& 0x7FFFFF = 0 := by decide
    simp only [f32Value, e1, e2, e3]
    norm_num
  refine ⟨h1, h2, ?_⟩
  rw [h1, h2]
  norm_num

/-! Bitwise-to-arithmetic bridge lemmas at the widths used by the codec. -/

lemma and_mod_1024 (x : ℕ) : x &&& 1023 = x % 1024 := by
  have h : (1023 : ℕ) = 2 ^ 10 - 1 := by norm_num
  rw [h, Nat.and_pow_two_sub_one_eq_mod]

lemma and_mod_32 (x : ℕ) : x &&& 31 = x % 32 := by
  have h : (31 : ℕ) = 2 ^ 5 - 1 := by norm_num
  rw [h, Nat.and_pow_two_sub_one_eq_mod]

lemma and_mod_256 (x : ℕ) : x &&& 255 = x % 256 := by
  have h : (255 : ℕ) = 2 ^ 8 - 1 := by norm_num
  rw [h, Nat.and_pow_two_sub_one_eq_mod]

lemma and_mod_8388608 (x : ℕ) : x &&& 8388607 = x % 8388608 := by
  have h : (8388607 : ℕ) = 2 ^ 23 - 1 := by norm_num
  rw [h, Nat.and_pow_two_sub_one_eq_mod]

lemma and_bit_15 (x : ℕ) : x &&& 32768 = x / 32768 % 2 * 32768 := by
  have h : (32768 : ℕ) = 2 ^ 15 := by norm_num
  rw [h, Nat.and_two_pow, Nat.toNat_testBit]

lemma shiftr10 (x : ℕ) : x >>> 10 = x / 1024 := by
  rw [Nat.shiftRight_eq_div_pow]

lemma shiftr13 (x : ℕ) : x >>> 13 = x / 8192 := by
  rw [Nat.shiftRight_eq_div_pow]

lemma shiftr16 (x : ℕ) : x >>> 16 = x / 65536 := by
  rw [Nat.shiftRight_eq_div_pow]

lemma shiftr23 (x : ℕ) : x >>> 23 = x / 8388608 := by
  rw [Nat.shiftRight_eq_div_pow]

/-- C4: for finite f32 inputs (exponent field below 255), a rebiased exponent
of 31 or more saturates to the signed-infinity half pattern, and a rebiased
exponent below -10 flushes to the signed-zero half pattern. -/
theorem fp32_to_fp16_saturation :
    ∀ bits : ℕ, bits < 4294967296 →
    (bits >>> 23) &&& 0xFF ≠ 0xFF →
    (((31 : ℤ) ≤ (((bits >>> 23) &&& 0xFF : ℕ) : ℤ) - 127 + 15 →
      fp32_to_fp16 bits = ((bits >>> 16) &&& 0x8000) ||| 0x7C00) ∧
    ((((bits >>> 23) &&& 0xFF : ℕ) : ℤ) - 127 + 15 < -10 →
      fp32_to_fp16 bits = (bits >>> 16) &&& 0x8000)) := by
  intro bits _ hfin
  have hfin' : (((bits >>> 23) &&& 0xFF : ℕ) : ℤ) ≠ 0xFF := by exact_mod_cast hfin
  have hslt : (bits >>> 16) &&& 32768 < 2 ^ 16 :=
    lt_of_le_of_lt Nat.and_le_right (by norm_num)
  constructor
  · intro h
    simp only [fp32_to_fp16]
    rw [if_neg hfin', if_pos h]
    have hor : ((bits >>> 16) &&& 32768) ||| 31744 < 2 ^ 16 :=
      Nat.or_lt_two_pow hslt (by norm_num)
    exact Nat.mod_eq_of_lt (by calc ((bits >>> 16) &&& 32768) ||| 31744 < 2 ^ 16 := hor
                                 _ ≤ 65536 := by norm_num)
  · intro h
    simp only [fp32_to_fp16]
    rw [if_neg hfin', if_neg (by omega), if_pos (by omega : (((bits >>> 23) &&& 0xFF : ℕ) : ℤ) - 127 + 15 ≤ 0), if_pos h]
    exact Nat.mod_eq_of_lt (lt_of_lt_of_le hslt (by norm_num))

/-- C4 witness: a large-exponent finite float saturates to the infinity half
pattern, and a tiny subnormal f32 flushes to the zero half pattern. -/
theorem fp32_to_fp16_saturation_witness :
    fp32_to_fp16 0x7F000000 = 0x7C00 ∧ fp32_to_fp16 1 = 0 := by
  constructor
  · exact ((fp32_to_fp16_saturation 0x7F000000 (by norm_num) (by decide)).1
      (by decide)).trans (by decide)
  · exact ((fp32_to_fp16_saturation 1 (by norm_num) (by decide)).2
      (by decide)).trans (by decide)

/-- Decoding a normal half pattern, written as sign s, exponent field e and
mantissa m, produces the f32 pattern with the same sign, exponent e + 112 and
the mantissa shifted up by 13 bits. -/
lemma fp16_to_fp32_normal (s e m : ℕ) (hs : s < 2) (he1 : 1 ≤ e) (he2 : e ≤ 30)
    (hm : m < 1024) :
    fp16_to_fp32 (s * 32768 + e * 1024 + m)
      = s * 2147483648 + (e + 112) * 8388608 + m * 8192 := by
  have hm' : (s * 32768 + e * 1024 + m) &&& 1023 = m := by
    rw [and_mod_1024]; omega
  have he' : ((s * 32768 + e * 1024 + m) >>> 10) &&& 31 = e := by
    rw [shiftr10, and_mod_32]; omega
  have hs' : (s * 32768 + e * 1024 + m) &&& 32768 = s * 32768 := by
    rw [and_bit_15]; omega
  simp only [fp16_to_fp32, hm', he', hs']
  rw [if_neg (by omega), if_neg (by omega)]
  rw [Nat.shiftLeft_eq, Nat.shiftLeft_eq, Nat.shiftLeft_eq]
  have h127 : e + 127 - 15 = e + 112 := by omega
  rw [h127]
  have e1 : s * 32768 * 2 ^ 16 = 2 ^ 31 * s := by ring
  rw [e1]
  have hb1 : (e + 112) * 2 ^ 23 < 2 ^ 31 := by
    have : (2 : ℕ) ^ 23 = 8388608 := by norm_num
    rw [this]
    have : (2 : ℕ) ^ 31 = 2147483648 := by norm_num
    rw [this]
    omega
  rw [← Nat.mul_add_lt_is_or hb1]
  have e2 : 2 ^ 31 * s + (e + 112) * 2 ^ 23 = 2 ^ 23 * (256 * s + (e + 112)) := by ring
  rw [e2]
  have hb2 : m * 2 ^ 13 < 2 ^ 23 := by
    have : (2 : ℕ) ^ 13 = 8192 := by norm_num
    rw [this]
    have : (2 : ℕ) ^ 23 = 8388608 := by norm_num
    rw [this]
    omega
  rw [← Nat.mul_add_lt_is_or hb2]
  ring

/-- Encoding the f32 pattern of a normal-half value truncates back to the
original sign, exponent field and 10-bit mantissa. -/
lemma fp32_to_fp16_of_normal (s e m : ℕ) (hs : s < 2) (he1 : 1 ≤ e) (he2 : e ≤ 30)
    (hm : m < 1024) :
    fp32_to_fp16 (s * 2147483648 + (e + 112) * 8388608 + m * 8192)
      = s * 32768 + e * 1024 + m := by
  have hsgn : ((s * 2147483648 + (e + 112) * 8388608 + m * 8192) >>> 16) &&& 32768
      = s * 32768 := by
    rw [shiftr16, and_bit_15]; omega
  have hexp : ((s * 2147483648 + (e + 112) * 8388608 + m * 8192) >>> 23) &&& 255
      = e + 112 := by
    rw [shiftr23, and_mod_256]; omega
  have hman : (s * 2147483648 + (e + 112) * 8388608 + m * 8192) &&& 8388607
      = m * 8192 := by
    rw [and_mod_8388608]; omega
  simp only [fp32_to_fp16, hsgn, hexp, hman]
  rw [if_neg (by omega : ¬ ((e + 112 : ℕ) : ℤ) = 255),
      if_neg (by omega : ¬ (31 : ℤ) ≤ ((e + 112 : ℕ) : ℤ) - 127 + 15),
      if_neg (by omega : ¬ ((e + 112 : ℕ) : ℤ) - 127 + 15 ≤ 0)]
  have htn : (((e + 112 : ℕ) : ℤ) - 127 + 15).toNat = e := by omega
  rw [htn, shiftr13, Nat.shiftLeft_eq]
  have hdiv : m * 8192 / 8192 = m := by omega
  rw [hdiv]
  have e1 : s * 32768 = 2 ^ 15 * s := by ring
  rw [e1]
  have hb1 : e * 2 ^ 10 < 2 ^ 15 := by
    have : (2 : ℕ) ^ 10 = 1024 := by norm_num
    rw [this]
    have : (2 : ℕ) ^ 15 = 32768 := by norm_num
    rw [this]
    omega
  rw [← Nat.mul_add_lt_is_or hb1]
  have e2 : 2 ^ 15 * s + e * 2 ^ 10 = 2 ^ 10 * (32 * s + e) := by ring
  rw [e2, ← Nat.mul_add_lt_is_or hm]
  have e3 : 2 ^ 10 * (32 * s + e) + m = s * 32768 + e * 1024 + m := by ring
  rw [e3]
  have hlt : s * 32768 + e * 1024 + m < 65536 := by omega
  rw [Nat.mod_eq_of_lt hlt]
  ring

/-- C9: for every half pattern whose exponent field lies between 1 and 30
(a finite normal half), decoding to f32 and re-encoding returns the original
pattern bit-exactly. -/
theorem fp16_roundtrip_normal :
    ∀ h < 65536, 1 ≤ (h >>> 10) &&& 0x1F → (h >>> 10) &&& 0x1F ≤ 30 →
      fp32_to_fp16 (fp16_to_fp32 h) = h := by
  intro h hh h1 h2
  have efield : (h >>> 10) &&& 0x1F = h / 1024 % 32 := by rw [shiftr10, and_mod_32]
  rw [efield] at h1 h2
  have hdecomp : h = h / 32768 * 32768 + h / 1024 % 32 * 1024 + h % 1024 := by omega
  rw [hdecomp,
    fp16_to_fp32_normal (h / 32768) (h / 1024 % 32) (h % 1024) (by omega) h1 h2 (by omega),
    fp32_to_fp16_of_normal (h / 32768) (h / 1024 % 32) (h % 1024) (by omega) h1 h2 (by omega)]

/-- C9 witness: the pattern 0x3C00 (one) has exponent field 15 and round-trips
bit-exactly. -/
theorem fp16_roundtrip_normal_witness :
    (0x3C00 : ℕ) < 65536 ∧ 1 ≤ ((0x3C00 : ℕ) >>> 10) &&& 0x1F ∧
      ((0x3C00 : ℕ) >>> 10) &&& 0x1F ≤ 30 ∧
      fp32_to_fp16 (fp16_to_fp32 0x3C00) = 0x3C00 :=
  ⟨by norm_num, by decide, by decide,
    fp16_roundtrip_normal 0x3C00 (by norm_num) (by decide) (by decide)⟩

/-! The FP16 KV cache and its persistence format. A u16 cache element is a
natural number below 2^16; a byte stream is a list of naturals below 256. -/

/-- The Fp16KvCache record from kv_cache.rs: fp16 key and value buffers,
dimensions and the position counter. -/
structure Fp16KvCache where
  key_cache : List ℕ
  value_cache : List ℕ
  n_layers : ℕ
  max_seq_len : ℕ
  kv_dim : ℕ
  pos : ℕ

/-- Truncation of a natural to 32 bits, the `as u32` cast. -/
def u32 (n : ℕ) : ℕ := n % 4294967296

/-- Little-endian byte encoding of a u32, as in to_le_bytes. -/
def le32 (n : ℕ) : List ℕ :=
  [u32 n % 256, u32 n / 256 % 256, u32 n / 65536 % 256, u32 n / 16777216 % 256]

/-- Little-endian byte encoding of a list of u16 values, mirroring the
flat_map of to_le_bytes over the cache buffers in save. -/
def bytesOfU16s : List ℕ → List ℕ
  | [] => []
  | v :: rest => v % 256 :: v / 256 % 256 :: bytesOfU16s rest

/-- Decode a four-byte little-endian u32; any other shape yields 0 (never
reached on the success path, where reads return exactly four bytes). -/
def decodeU32 : List ℕ → ℕ
  | [a, b, c, d] => a + 256 * b + 65536 * c + 16777216 * d
  | _ => 0

/-- Decode a byte list into u16 values two bytes at a time, little-endian,
mirroring chunks_exact(2) with from_le_bytes. -/
def decodeU16s : List ℕ → List ℕ
  | a :: b :: rest => (a + 256 * b) :: decodeU16s rest
  | _ => []

/-- Serialize a cache: the BCKV magic, four little-endian u32 dimension
fields, then the raw key and value arrays, mirroring Fp16KvCache::save. -/
def Fp16KvCache.save (c : Fp16KvCache) : List ℕ :=
  [66, 67, 75, 86] ++ le32 c.n_layers ++ le32 c.max_seq_len ++ le32 c.kv_dim
    ++ le32 c.pos ++ bytesOfU16s c.key_cache ++ bytesOfU16s c.value_cache

/-- The two failure kinds of load_from: wrong magic bytes are reported as
invalid data, and a short read as an unexpected end of file. -/
inductive LoadError where
  | invalidData : LoadError
  | unexpectedEof : LoadError

/-- read_exact on a byte stream: take n bytes and return them with the rest
of the stream, or fail when fewer than n bytes remain. -/
def readExact (n : ℕ) (s : List ℕ) : Except LoadError (List ℕ × List ℕ) :=
  if n ≤ s.length then Except.ok (s.take n, s.drop n)
  else Except.error LoadError.unexpectedEof

/-- Multiplication of two usize values on a 64-bit target: the product wraps
modulo 2^64, the release-build behaviour of the source. -/
def usizeMul (a b : ℕ) : ℕ := a * b % 18446744073709551616

/-- Deserialize a cache, mirroring Fp16KvCache::load_from: check the magic,
read the four dimension fields, then read the two fp16 arrays whose byte size
the dimension fields determine, with the size products
n_layers * max_seq_len * kv_dim and total * 2 computed in wrapping 64-bit
usize arithmetic exactly as the source computes them; a cache value is built
only after every read succeeded. -/
def Fp16KvCache.load_from (s : List ℕ) : Except LoadError Fp16KvCache :=
  (readExact 4 s).bind fun p =>
    if p.1 ≠ [66, 67, 75, 86] then Except.error LoadError.invalidData
    else
      (readExact 4 p.2).bind fun q1 =>
        (readExact 4 q1.2).bind fun q2 =>
          (readExact 4 q2.2).bind fun q3 =>
            (readExact 4 q3.2).bind fun q4 =>
              (readExact (usizeMul (usizeMul (usizeMul (decodeU32 q1.1)
                  (decodeU32 q2.1)) (decodeU32 q3.1)) 2) q4.2).bind fun kb =>
                (readExact (usizeMul (usizeMul (usizeMul (decodeU32 q1.1)
                    (decodeU32 q2.1)) (decodeU32 q3.1)) 2) kb.2).bind fun vb =>
                  Except.ok { key_cache := decodeU16s kb.1,
                              value_cache := decodeU16s vb.1,
                              n_layers := decodeU32 q1.1,
                              max_seq_len := decodeU32 q2.1,
                              kv_dim := decodeU32 q3.1,
                              pos := decodeU32 q4.1 }

/-- Memory usage in bytes: two bytes per stored fp16 element. -/
def Fp16KvCache.memory_usage (c : Fp16KvCache) : ℕ :=
  (c.key_cache.length + c.value_cache.length) * 2

lemma except_bind_ok {ε α β : Type} (a : α) (f : α → Except ε β) :
    (Except.ok a : Except ε α).bind f = f a := rfl

lemma except_bind_error {ε α β : Type} (e : ε) (f : α → Except ε β) :
    (Except.error e : Except ε α).bind f = (Except.error e : Except ε β) := rfl

lemma readExact_append (l₁ l₂ : List ℕ) (n : ℕ) (h : l₁.length = n) :
    readExact n (l₁ ++ l₂) = Except.ok (l₁, l₂) := by
  unfold readExact
  rw [if_pos (by simp [List.length_append]; omega),
    List.take_left' h, List.drop_left' h]

lemma readExact_exact (l : List ℕ) (n : ℕ) (h : l.length = n) :
    readExact n l = Except.ok (l, []) := by
  have h2 := readExact_append l [] n h
  simpa using h2

lemma readExact_short (n : ℕ) (s : List ℕ) (h : s.length < n) :
    readExact n s = Except.error LoadError.unexpectedEof := by
  unfold readExact
  rw [if_neg (by omega)]

lemma le32_length (n : ℕ) : (le32 n).length = 4 := rfl

lemma decodeU32_le32 (n : ℕ) (h : n < 4294967296) : decodeU32 (le32 n) = n := by
  simp only [decodeU32, le32, u32]
  omega

lemma bytesOfU16s_length (l : List ℕ) : (bytesOfU16s l).length = 2 * l.length := by
  induction l with
  | nil => rfl
  | cons v rest ih => simp [bytesOfU16s, ih]; omega

lemma decodeU16s_bytesOfU16s (l : List ℕ) (h : ∀ x ∈ l, x < 65536) :
    decodeU16s (bytesOfU16s l) = l := by
  induction l with
  | nil => rfl
  | cons v rest ih =>
    have hv : v < 65536 := h v (by simp)
    have hrest : ∀ x ∈ rest, x < 65536 := fun x hx => h x (by simp [hx])
    simp only [bytesOfU16s, decodeU16s, ih hrest]
    congr 1
    omega

/-- C6: loading the byte stream written by save reproduces the cache exactly,
field for field and fp16 element for fp16 element, whenever the dimension
fields fit in a u32, the buffers have their constructed lengths and the
element count stays below the Vec allocation bound of 2^62 elements (every
real Vec of u16 keeps its byte size at or below isize MAX), under which the
usize size arithmetic of load_from provably does not wrap. -/
theorem load_from_save_roundtrip (c : Fp16KvCache)
    (h1 : c.n_layers < 4294967296) (h2 : c.max_seq_len < 4294967296)
    (h3 : c.kv_dim < 4294967296) (h4 : c.pos < 4294967296)
    (htot : c.n_layers * c.max_seq_len * c.kv_dim < 4611686018427387904)
    (hk : c.key_cache.length = c.n_layers * c.max_seq_len * c.kv_dim)
    (hv : c.value_cache.length = c.n_layers * c.max_seq_len * c.kv_dim)
    (hke : ∀ x ∈ c.key_cache, x < 65536)
    (hve : ∀ x ∈ c.value_cache, x < 65536) :
    Fp16KvCache.load_from c.save = Except.ok c := by
  have hml : c.n_layers * c.max_seq_len ≤ 18446744065119617025 := by
    calc c.n_layers * c.max_seq_len ≤ 4294967295 * 4294967295 :=
          Nat.mul_le_mul (by omega) (by omega)
      _ = 18446744065119617025 := by norm_num
  have hcount : usizeMul (usizeMul (usizeMul c.n_layers c.max_seq_len) c.kv_dim) 2
      = c.n_layers * c.max_seq_len * c.kv_dim * 2 := by
    simp only [usizeMul]
    rw [Nat.mod_eq_of_lt
        (by omega : c.n_layers * c.max_seq_len < 18446744073709551616),
      Nat.mod_eq_of_lt
        (by omega : c.n_layers * c.max_seq_len * c.kv_dim < 18446744073709551616),
      Nat.mod_eq_of_lt
        (by omega : c.n_layers * c.max_seq_len * c.kv_dim * 2 < 18446744073709551616)]
  have hL : c.save = [66, 67, 75, 86] ++ (le32 c.n_layers ++ (le32 c.max_seq_len
      ++ (le32 c.kv_dim ++ (le32 c.pos ++ (bytesOfU16s c.key_cache
      ++ bytesOfU16s c.value_cache))))) := by
    simp [Fp16KvCache.save, List.append_assoc]
  rw [hL]
  unfold Fp16KvCache.load_from
  rw [readExact_append [66, 67, 75, 86] _ 4 rfl, except_bind_ok]
  rw [if_neg (by simp)]
  rw [readExact_append (le32 c.n_layers) _ 4 (le32_length _), except_bind_ok]
  rw [readExact_append (le32 c.max_seq_len) _ 4 (le32_length _), except_bind_ok]
  rw [readExact_append (le32 c.kv_dim) _ 4 (le32_length _), except_bind_ok]
  rw [readExact_append (le32 c.pos) _ 4 (le32_length _), except_bind_ok]
  rw [decodeU32_le32 _ h1, decodeU32_le32 _ h2, decodeU32_le32 _ h3,
    decodeU32_le32 _ h4]
  rw [readExact_append (bytesOfU16s c.key_cache) _
    (usizeMul (usizeMul (usizeMul c.n_layers c.max_seq_len) c.kv_dim) 2)
    (by rw [hcount, bytesOfU16s_length, hk]; ring), except_bind_ok]
  rw [readExact_exact (bytesOfU16s c.value_cache)
    (usizeMul (usizeMul (usizeMul c.n_layers c.max_seq_len) c.kv_dim) 2)
    (by rw [hcount, bytesOfU16s_length, hv]; ring), except_bind_ok]
  rw [decodeU16s_bytesOfU16s _ hke, decodeU16s_bytesOfU16s _ hve]

/-- C6 witness: a concrete one-element cache round-trips through save and
load_from unchanged. -/
theorem load_from_save_roundtrip_witness :
    (Fp16KvCache.mk [7] [9] 1 1 1 0).n_layers < 4294967296 ∧
    (∀ x ∈ (Fp16KvCache.mk [7] [9] 1 1 1 0).key_cache, x < 65536) ∧
    Fp16KvCache.load_from (Fp16KvCache.mk [7] [9] 1 1 1 0).save
      = Except.ok (Fp16KvCache.mk [7] [9] 1 1 1 0) :=
  ⟨by norm_num, by decide, load_from_save_roundtrip (Fp16KvCache.mk [7] [9] 1 1 1 0)
    (by norm_num) (by norm_num) (by norm_num) (by norm_num) (by norm_num)
    (by decide) (by decide) (by decide) (by decide)⟩

lemma readExact_ok (n : ℕ) (s : List ℕ) (h : n ≤ s.length) :
    readExact n s = Except.ok (s.take n, s.drop n) := by
  unfold readExact
  rw [if_pos h]

/-- C7 (amended): load_from fails with invalidData exactly when the stream
has four initial bytes that are not the BCKV magic, before any dimension
field is read; with the right magic it fails with unexpectedEof whenever the
stream is shorter than the 20-byte header plus the two array byte counts
that the code computes from its own dimension fields in wrapping usize
arithmetic. No cache value is produced on either failure path. -/
theorem load_from_failure (s : List ℕ) :
    (4 ≤ s.length → s.take 4 ≠ [66, 67, 75, 86] →
      Fp16KvCache.load_from s = Except.error LoadError.invalidData) ∧
    (s.take 4 = [66, 67, 75, 86] →
      s.length < 20 + 2 * usizeMul (usizeMul (usizeMul
          (decodeU32 ((s.drop 4).take 4)) (decodeU32 ((s.drop 8).take 4)))
          (decodeU32 ((s.drop 12).take 4))) 2 →
      Fp16KvCache.load_from s = Except.error LoadError.unexpectedEof) := by
  constructor
  · intro h4 hm
    unfold Fp16KvCache.load_from
    rw [readExact_ok 4 s h4, except_bind_ok, if_pos hm]
  · intro heq hlen
    have h4 : 4 ≤ s.length := by
      have hlen4 := congrArg List.length heq
      simp [List.length_take] at hlen4
      omega
    unfold Fp16KvCache.load_from
    rw [readExact_ok 4 s h4, except_bind_ok, if_neg (not_not_intro heq)]
    rcases Nat.lt_or_ge s.length 8 with h8 | h8
    · rw [readExact_short 4 (s.drop 4) (by simp; omega), except_bind_error]
    · rw [readExact_ok 4 (s.drop 4) (by simp; omega), except_bind_ok]
      rcases Nat.lt_or_ge s.length 12 with h12 | h12
      · rw [readExact_short 4 ((s.drop 4).drop 4) (by simp; omega), except_bind_error]
      · rw [show (s.drop 4).drop 4 = s.drop 8 from by rw [List.drop_drop]]
        rw [readExact_ok 4 (s.drop 8) (by simp; omega), except_bind_ok]
        rcases Nat.lt_or_ge s.length 16 with h16 | h16
        · rw [readExact_short 4 ((s.drop 8).drop 4) (by simp; omega), except_bind_error]
        · rw [show (s.drop 8).drop 4 = s.drop 12 from by rw [List.drop_drop]]
          rw [readExact_ok 4 (s.drop 12) (by simp; omega), except_bind_ok]
          rcases Nat.lt_or_ge s.length 20 with h20 | h20
          · rw [readExact_short 4 ((s.drop 12).drop 4) (by simp; omega),
              except_bind_error]
          · rw [show (s.drop 12).drop 4 = s.drop 16 from by rw [List.drop_drop]]
            rw [readExact_ok 4 (s.drop 16) (by simp; omega), except_bind_ok]
            rw [show (s.drop 16).drop 4 = s.drop 20 from by rw [List.drop_drop]]
            rcases Nat.lt_or_ge ((s.drop 20).length)
                (usizeMul (usizeMul (usizeMul (decodeU32 ((s.drop 4).take 4))
                  (decodeU32 ((s.drop 8).take 4)))
                  (decodeU32 ((s.drop 12).take 4))) 2) with hkey | hkey
            · rw [readExact_short _ (s.drop 20) hkey, except_bind_error]
            · rw [readExact_ok _ (s.drop 20) hkey, except_bind_ok]
              rw [List.drop_drop]
              rw [readExact_short _ (s.drop (20 + usizeMul (usizeMul (usizeMul
                  (decodeU32 ((s.drop 4).take 4)) (decodeU32 ((s.drop 8).take 4)))
                  (decodeU32 ((s.drop 12).take 4))) 2))
                (by simp at hkey ⊢; omega), except_bind_error]

/-- C7 witness: a wrong-magic stream is rejected as invalid data, and a
magic-only stream (no header fields) fails as an unexpected end of file. -/
theorem load_from_failure_witness :
    Fp16KvCache.load_from [0, 0, 0, 0] = Except.error LoadError.invalidData ∧
    Fp16KvCache.load_from [66, 67, 75, 86] = Except.error LoadError.unexpectedEof :=
  ⟨(load_from_failure [0, 0, 0, 0]).1 (by norm_num) (by decide),
   (load_from_failure [66, 67, 75, 86]).2 (by decide) (by decide)⟩

/-- C7 counterexample to the unamended claim: a 20-byte stream holding the
BCKV magic and dimension fields 2^22, 2^21, 2^21 (product exactly 2^64) is
far shorter than the header plus the mathematically dimension-determined
array sizes, yet load_from returns Ok with empty buffers: the source
computes total = n_layers * max_seq_len * kv_dim in usize, which wraps to
0, so both array reads ask for 0 bytes and succeed. -/
theorem load_from_failure_counterexample :
    ([66, 67, 75, 86] ++ le32 4194304 ++ le32 2097152 ++ le32 2097152
        ++ le32 0).take 4 = [66, 67, 75, 86] ∧
    ([66, 67, 75, 86] ++ le32 4194304 ++ le32 2097152 ++ le32 2097152
        ++ le32 0).length
      < 20 + decodeU32 ((([66, 67, 75, 86] ++ le32 4194304 ++ le32 2097152
            ++ le32 2097152 ++ le32 0).drop 4).take 4)
          * decodeU32 ((([66, 67, 75, 86] ++ le32 4194304 ++ le32 2097152
            ++ le32 2097152 ++ le32 0).drop 8).take 4)
          * decodeU32 ((([66, 67, 75, 86] ++ le32 4194304 ++ le32 2097152
            ++ le32 2097152 ++ le32 0).drop 12).take 4) * 4 ∧
    Fp16KvCache.load_from ([66, 67, 75, 86] ++ le32 4194304 ++ le32 2097152
        ++ le32 2097152 ++ le32 0)
      = Except.ok (Fp16KvCache.mk [] [] 4194304 2097152 2097152 0) ∧
    ¬ Fp16KvCache.load_from ([66, 67, 75, 86] ++ le32 4194304 ++ le32 2097152
        ++ le32 2097152 ++ le32 0) = Except.error LoadError.unexpectedEof := by
  have hok : Fp16KvCache.load_from ([66, 67, 75, 86] ++ le32 4194304
      ++ le32 2097152 ++ le32 2097152 ++ le32 0)
      = Except.ok (Fp16KvCache.mk [] [] 4194304 2097152 2097152 0) := rfl
  refine ⟨by decide, by decide, hok, ?_⟩
  intro hcontra
  rw [hok] at hcontra
  exact Except.noConfusion hcontra

/-- Sequential in-place writes: writeSeq l off vs stores the elements of vs
at consecutive indices starting at off, mirroring the indexed assignment
loop of store_key and store_value. -/
def writeSeq (l : List ℕ) (off : ℕ) : List ℕ → List ℕ
  | [] => l
  | v :: vs => writeSeq (l.set off v) (off + 1) vs

/-- Store a key vector at (layer, pos): convert each of the first kv_dim
elements of data through the codec and write them at the flat offset,
mirroring Fp16KvCache::store_key. -/
def Fp16KvCache.store_key (c : Fp16KvCache) (layer p : ℕ) (data : List ℕ) :
    Fp16KvCache :=
  let off := (layer * c.max_seq_len + p) * c.kv_dim
  { c with key_cache := writeSeq c.key_cache off ((data.take c.kv_dim).map fp32_to_fp16) }

/-- Store a value vector at (layer, pos), mirroring Fp16KvCache::store_value. -/
def Fp16KvCache.store_value (c : Fp16KvCache) (layer p : ℕ) (data : List ℕ) :
    Fp16KvCache :=
  let off := (layer * c.max_seq_len + p) * c.kv_dim
  { c with value_cache := writeSeq c.value_cache off ((data.take c.kv_dim).map fp32_to_fp16) }

lemma writeSeq_length (vs : List ℕ) : ∀ (l : List ℕ) (off : ℕ),
    (writeSeq l off vs).length = l.length := by
  induction vs with
  | nil => intro l off; rfl
  | cons v vs ih => intro l off; rw [writeSeq, ih]; simp

lemma writeSeq_getElem_lt (vs : List ℕ) : ∀ (l : List ℕ) (off j : ℕ), j < off →
    (writeSeq l off vs)[j]? = l[j]? := by
  induction vs with
  | nil => intro l off j _; rfl
  | cons v vs ih =>
    intro l off j hj
    rw [writeSeq, ih _ _ _ (by omega), List.getElem?_set_ne (by omega)]

lemma writeSeq_getElem_ge (vs : List ℕ) : ∀ (l : List ℕ) (off j : ℕ),
    off + vs.length ≤ j → (writeSeq l off vs)[j]? = l[j]? := by
  induction vs with
  | nil => intro l off j _; rfl
  | cons v vs ih =>
    intro l off j hj
    simp only [List.length_cons] at hj
    rw [writeSeq, ih _ _ _ (by omega), List.getElem?_set_ne (by omega)]

lemma writeSeq_getElem_at (vs : List ℕ) : ∀ (l : List ℕ) (off i : ℕ),
    i < vs.length → off + i < l.length →
    (writeSeq l off vs)[off + i]? = vs[i]? := by
  induction vs with
  | nil => intro l off i hi; simp at hi
  | cons v vs ih =>
    intro l off i hi hb
    cases i with
    | zero =>
      rw [writeSeq]
      have hlt : (writeSeq (l.set off v) (off + 1) vs)[off + 0]?
          = (l.set off v)[off]? := by
        rw [Nat.add_zero]
        exact writeSeq_getElem_lt vs _ _ _ (by omega)
      rw [hlt, List.getElem?_set_self (by simpa using hb)]
      simp
    | succ i =>
      rw [writeSeq]
      have hstep := ih (l.set off v) (off + 1) i (by simpa using hi)
        (by simp; omega)
      rw [show off + (i + 1) = off + 1 + i from by omega, hstep]
      simp

/-- C10: store_key and store_value write exactly the first
min(data.length, kv_dim) codec-converted elements at the flat offset
(layer * max_seq_len + pos) * kv_dim, never panic on short or long inputs,
and leave all dimensions, the position counter, the other buffer and every
cache element outside the written range unchanged. -/
theorem store_key_value_frame (c : Fp16KvCache) (layer p : ℕ) (data : List ℕ)
    (hl : layer < c.n_layers) (hp : p < c.max_seq_len)
    (hk : c.key_cache.length = c.n_layers * c.max_seq_len * c.kv_dim)
    (hv : c.value_cache.length = c.n_layers * c.max_seq_len * c.kv_dim) :
    ((c.store_key layer p data).n_layers = c.n_layers ∧
     (c.store_key layer p data).max_seq_len = c.max_seq_len ∧
     (c.store_key layer p data).kv_dim = c.kv_dim ∧
     (c.store_key layer p data).pos = c.pos ∧
     (c.store_key layer p data).value_cache = c.value_cache ∧
     (c.store_key layer p data).key_cache.length = c.key_cache.length ∧
     (∀ i < min data.length c.kv_dim,
       (c.store_key layer p data).key_cache[(layer * c.max_seq_len + p) * c.kv_dim + i]?
         = (data[i]?).map fp32_to_fp16) ∧
     (∀ j, j < (layer * c.max_seq_len + p) * c.kv_dim ∨
         (layer * c.max_seq_len + p) * c.kv_dim + min data.length c.kv_dim ≤ j →
       (c.store_key layer p data).key_cache[j]? = c.key_cache[j]?)) ∧
    ((c.store_value layer p data).n_layers = c.n_layers ∧
     (c.store_value layer p data).max_seq_len = c.max_seq_len ∧
     (c.store_value layer p data).kv_dim = c.kv_dim ∧
     (c.store_value layer p data).pos = c.pos ∧
     (c.store_value layer p data).key_cache = c.key_cache ∧
     (c.store_value layer p data).value_cache.length = c.value_cache.length ∧
     (∀ i < min data.length c.kv_dim,
       (c.store_value layer p data).value_cache[(layer * c.max_seq_len + p) * c.kv_dim + i]?
         = (data[i]?).map fp32_to_fp16) ∧
     (∀ j, j < (layer * c.max_seq_len + p) * c.kv_dim ∨
         (layer * c.max_seq_len + p) * c.kv_dim + min data.length c.kv_dim ≤ j →
       (c.store_value layer p data).value_cache[j]? = c.value_cache[j]?)) := by
  have hlenvs : ((data.take c.kv_dim).map fp32_to_fp16).length
      = min data.length c.kv_dim := by
    simp [List.length_take, Nat.min_comm]
  have hoffb : ((layer * c.max_seq_len + p) * c.kv_dim) + c.kv_dim
      ≤ c.n_layers * c.max_seq_len * c.kv_dim := by
    have h5 : layer * c.max_seq_len + p + 1 ≤ c.n_layers * c.max_seq_len := by
      calc layer * c.max_seq_len + p + 1
          ≤ layer * c.max_seq_len + c.max_seq_len := by omega
        _ = (layer + 1) * c.max_seq_len := by ring
        _ ≤ c.n_layers * c.max_seq_len := Nat.mul_le_mul_right _ (by omega)
    calc (layer * c.max_seq_len + p) * c.kv_dim + c.kv_dim
        = (layer * c.max_seq_len + p + 1) * c.kv_dim := by ring
      _ ≤ c.n_layers * c.max_seq_len * c.kv_dim := Nat.mul_le_mul_right _ h5
  have hwrite : ∀ (buf : List ℕ),
      buf.length = c.n_layers * c.max_seq_len * c.kv_dim →
      (∀ i < min data.length c.kv_dim,
        (writeSeq buf ((layer * c.max_seq_len + p) * c.kv_dim)
          ((data.take c.kv_dim).map fp32_to_fp16))[(layer * c.max_seq_len + p) * c.kv_dim + i]?
          = (data[i]?).map fp32_to_fp16) ∧
      (∀ j, j < (layer * c.max_seq_len + p) * c.kv_dim ∨
          (layer * c.max_seq_len + p) * c.kv_dim + min data.length c.kv_dim ≤ j →
        (writeSeq buf ((layer * c.max_seq_len + p) * c.kv_dim)
          ((data.take c.kv_dim).map fp32_to_fp16))[j]? = buf[j]?) := by
    intro buf hbuf
    constructor
    · intro i hi
      rw [writeSeq_getElem_at _ _ _ _ (by rw [hlenvs]; exact hi)
        (by rw [hbuf]; omega)]
      rw [List.getElem?_map, List.getElem?_take_of_lt (by omega)]
    · intro j hj
      rcases hj with hj | hj
      · exact writeSeq_getElem_lt _ _ _ _ hj
      · exact writeSeq_getElem_ge _ _ _ _ (by rw [hlenvs]; omega)
  refine ⟨⟨rfl, rfl, rfl, rfl, rfl, by simp [Fp16KvCache.store_key, writeSeq_length],
      (hwrite c.key_cache hk).1, (hwrite c.key_cache hk).2⟩,
    ⟨rfl, rfl, rfl, rfl, rfl, by simp [Fp16KvCache.store_value, writeSeq_length],
      (hwrite c.value_cache hv).1, (hwrite c.value_cache hv).2⟩⟩

/-- C10 witness: on a concrete one-layer cache, storing a short key vector
leaves the value buffer untouched and writes the converted element. -/
theorem store_key_value_frame_witness :
    (0 : ℕ) < 1 ∧
    ((Fp16KvCache.mk [0, 0] [0, 0] 1 1 2 0).store_key 0 0 [0]).value_cache
      = (Fp16KvCache.mk [0, 0] [0, 0] 1 1 2 0).value_cache :=
  ⟨Nat.zero_lt_one,
    (store_key_value_frame (Fp16KvCache.mk [0, 0] [0, 0] 1 1 2 0) 0 0 [0]
      (by norm_num) (by norm_num) (by decide) (by decide)).1.2.2.2.2.1⟩

/-! The online-softmax (flash) attention kernels of attention.rs, modelled in
exact real arithmetic. Flat f32 buffers become functions from flat indices to
reals; the running maximum starts at negative infinity in the source, which
the model represents as the Option value none, with the first rescale factor
exp(-inf - x) equal to 0 exactly as it evaluates in machine floats. -/

/-- The loop state of the online softmax: running maximum (none standing for
the initial negative infinity), running normalizer and output accumulator. -/
structure OnlineState where
  running_max : Option ℝ
  running_sum : ℝ
  out : ℕ → ℝ

/-- One iteration of the online-softmax loop for position t: take the new
maximum, rescale the accumulated sum and output, and add the contribution of
position t, mirroring the loop body shared by attention and
attention_strided. -/
noncomputable def attentionStep (score : ℕ → ℝ) (v : ℕ → ℕ → ℝ) (t : ℕ)
    (st : OnlineState) : OnlineState :=
  let s := score t
  let new_max : ℝ := match st.running_max with
    | none => s
    | some m => max m s
  let scale_old : ℝ := match st.running_max with
    | none => 0
    | some m => Real.exp (m - new_max)
  let exp_score := Real.exp (s - new_max)
  { running_max := some new_max
    running_sum := st.running_sum * scale_old + exp_score
    out := fun i => st.out i * scale_old + exp_score * v t i }

/-- State after the first n iterations of the online-softmax loop, starting
from the zero accumulator and the negative-infinity running maximum. -/
noncomputable def attentionLoop (score : ℕ → ℝ) (v : ℕ → ℕ → ℝ) : ℕ → OnlineState
  | 0 => { running_max := none, running_sum := 0, out := fun _ => 0 }
  | n + 1 => attentionStep score v n (attentionLoop score v n)

/-- Attention score of position t: the dot product of the query with the
t-th key row of the contiguous cache, scaled by 1 / sqrt(head_dim). -/
noncomputable def attnScore (q kc : ℕ → ℝ) (head_dim t : ℕ) : ℝ :=
  (∑ i ∈ Finset.range head_dim, q i * kc (t * head_dim + i)) * (1 / Real.sqrt head_dim)

/-- Single-head attention over a contiguous cache, mirroring attention in
attention.rs: zero output for an empty sequence, otherwise the online-softmax
loop followed by the final normalization guarded by running_sum > 0. -/
noncomputable def attention (q kc vc : ℕ → ℝ) (seq_len head_dim : ℕ) : ℕ → ℝ :=
  if seq_len = 0 then fun _ => 0
  else
    let st := attentionLoop (attnScore q kc head_dim)
      (fun t i => vc (t * head_dim + i)) seq_len
    if 0 < st.running_sum then fun i => st.out i * (1 / st.running_sum) else st.out

/-- Attention score of position t against a strided cache with per-position
stride kv_stride and base offset k_base. -/
noncomputable def attnScoreStrided (q kc : ℕ → ℝ) (head_dim kv_stride k_base t : ℕ) : ℝ :=
  (∑ i ∈ Finset.range head_dim, q i * kc (t * kv_stride + k_base + i))
    * (1 / Real.sqrt head_dim)

/-- Strided single-head attention, mirroring attention_strided in
attention.rs: identical to attention except that position t reads keys at
t * kv_stride + k_base and values at t * kv_stride + v_base. -/
noncomputable def attention_strided (q kc vc : ℕ → ℝ)
    (seq_len head_dim kv_stride k_base v_base : ℕ) : ℕ → ℝ :=
  if seq_len = 0 then fun _ => 0
  else
    let st := attentionLoop (attnScoreStrided q kc head_dim kv_stride k_base)
      (fun t i => vc (t * kv_stride + v_base + i)) seq_len
    if 0 < st.running_sum then fun i => st.out i * (1 / st.running_sum) else st.out

/-- Multi-head GQA attention, mirroring multi_head_attention in attention.rs:
output element j belongs to query head j / head_dim, which runs the strided
kernel against key/value head (j / head_dim) / gqa_ratio at stride
n_kv_heads * head_dim. -/
noncomputable def multi_head_attention (q kc vc : ℕ → ℝ)
    (n_heads n_kv_heads seq_len head_dim : ℕ) : ℕ → ℝ :=
  fun j =>
    let gqa_ratio := n_heads / n_kv_heads
    let h := j / head_dim
    let kv_head := h / gqa_ratio
    let kv_stride := n_kv_heads * head_dim
    attention_strided (fun i => q (h * head_dim + i)) kc vc seq_len head_dim kv_stride
      (kv_head * head_dim) (kv_head * head_dim) (j % head_dim)

/-- Maximum of the scores at positions below n (for n of at least 1). -/
noncomputable def maxScore (score : ℕ → ℝ) : ℕ → ℝ
  | 0 => score 0
  | n + 1 => max (maxScore score n) (score n)

/-- The softmax weight of position t among the first n positions, written
from the specification text: exp(score t - max score) normalized by the sum
of exponentials. -/
noncomputable def softmaxWeight (score : ℕ → ℝ) (n t : ℕ) : ℝ :=
  Real.exp (score t - maxScore score n)
    / ∑ j ∈ Finset.range n, Real.exp (score j - maxScore score n)

/-- The two-pass reference attention, written from the specification text:
the softmax-weighted sum of the value rows. -/
noncomputable def twoPassAttentionSpec (q kc vc : ℕ → ℝ) (seq_len head_dim : ℕ) :
    ℕ → ℝ :=
  fun i => ∑ t ∈ Finset.range seq_len,
    softmaxWeight (attnScore q kc head_dim) seq_len t * vc (t * head_dim + i)

lemma le_maxScore (score : ℕ → ℝ) : ∀ n t, t < n → score t ≤ maxScore score n := by
  intro n
  induction n with
  | zero => intro t ht; omega
  | succ n ih =>
    intro t ht
    rcases Nat.lt_or_ge t n with h2 | h2
    · exact le_trans (ih t h2) (le_max_left _ _)
    · have ht2 : t = n := by omega
      subst ht2
      exact le_max_right _ _

lemma attentionLoop_spec (score : ℕ → ℝ) (v : ℕ → ℕ → ℝ) :
    ∀ n, 1 ≤ n →
      (attentionLoop score v n).running_max = some (maxScore score n) ∧
      (attentionLoop score v n).running_sum
        = ∑ t ∈ Finset.range n, Real.exp (score t - maxScore score n) ∧
      ∀ i, (attentionLoop score v n).out i
        = ∑ t ∈ Finset.range n, Real.exp (score t - maxScore score n) * v t i := by
  intro n
  induction n with
  | zero => omega
  | succ n ih =>
    intro _
    cases n with
    | zero =>
      refine ⟨?_, ?_, fun i => ?_⟩ <;>
        simp [attentionLoop, attentionStep, maxScore, Finset.sum_range_one]
    | succ k =>
      obtain ⟨ihmax, ihsum, ihout⟩ := ih (by omega)
      have hM2 : maxScore score (k + 1 + 1)
          = max (maxScore score (k + 1)) (score (k + 1)) := rfl
      have hrescale : ∀ x : ℝ,
          Real.exp (x - maxScore score (k + 1))
              * Real.exp (maxScore score (k + 1) - maxScore score (k + 1 + 1))
            = Real.exp (x - maxScore score (k + 1 + 1)) := by
        intro x
        rw [← Real.exp_add]
        congr 1
        ring
      refine ⟨?_, ?_, fun i => ?_⟩
      · show (attentionStep score v (k + 1) (attentionLoop score v (k + 1))).running_max = _
        simp only [attentionStep, ihmax]
        rw [hM2]
      · show (attentionStep score v (k + 1) (attentionLoop score v (k + 1))).running_sum = _
        simp only [attentionStep, ihmax, ihsum]
        rw [← hM2]
        conv_rhs => rw [Finset.sum_range_succ]
        congr 1
        rw [Finset.sum_mul]
        exact Finset.sum_congr rfl fun t ht => hrescale (score t)
      · show (attentionStep score v (k + 1) (attentionLoop score v (k + 1))).out i = _
        simp only [attentionStep, ihmax]
        rw [ihout i, ← hM2]
        conv_rhs => rw [Finset.sum_range_succ]
        congr 1
        rw [Finset.sum_mul]
        refine Finset.sum_congr rfl fun t ht => ?_
        rw [mul_right_comm, hrescale]

lemma attentionRun_eq (score : ℕ → ℝ) (v : ℕ → ℕ → ℝ) (n : ℕ) (hn : 1 ≤ n) :
    (if 0 < (attentionLoop score v n).running_sum
      then fun i => (attentionLoop score v n).out i
        * (1 / (attentionLoop score v n).running_sum)
      else (attentionLoop score v n).out)
    = fun i => ∑ t ∈ Finset.range n, softmaxWeight score n t * v t i := by
  obtain ⟨hmax, hsum, hout⟩ := attentionLoop_spec score v n hn
  have hDpos : 0 < ∑ t ∈ Finset.range n, Real.exp (score t - maxScore score n) :=
    Finset.sum_pos (fun t _ => Real.exp_pos _) (Finset.nonempty_range_iff.mpr (by omega))
  rw [if_pos (by rw [hsum]; exact hDpos)]
  funext i
  rw [hout i, hsum, Finset.sum_mul]
  refine Finset.sum_congr rfl fun t ht => ?_
  rw [softmaxWeight]
  ring

/-- C1: for a nonempty sequence, the online-softmax kernel equals the
two-pass softmax reference; each softmax weight lies in [0, 1]; the weights
sum to 1; and constant value rows are returned unchanged. -/
theorem attention_eq_twoPass (q kc vc : ℕ → ℝ) (seq_len head_dim : ℕ)
    (hs : 1 ≤ seq_len) (hd : 1 ≤ head_dim) :
    (∀ i, attention q kc vc seq_len head_dim i
        = twoPassAttentionSpec q kc vc seq_len head_dim i) ∧
    (∀ t < seq_len, 0 ≤ softmaxWeight (attnScore q kc head_dim) seq_len t ∧
        softmaxWeight (attnScore q kc head_dim) seq_len t ≤ 1) ∧
    (∑ t ∈ Finset.range seq_len, softmaxWeight (attnScore q kc head_dim) seq_len t = 1) ∧
    (∀ cv : ℕ → ℝ, (∀ t < seq_len, ∀ i < head_dim, vc (t * head_dim + i) = cv i) →
      ∀ i < head_dim, attention q kc vc seq_len head_dim i = cv i) := by
  have hDpos : 0 < ∑ j ∈ Finset.range seq_len,
      Real.exp (attnScore q kc head_dim j - maxScore (attnScore q kc head_dim) seq_len) :=
    Finset.sum_pos (fun t _ => Real.exp_pos _) (Finset.nonempty_range_iff.mpr (by omega))
  have hmain : ∀ i, attention q kc vc seq_len head_dim i
      = ∑ t ∈ Finset.range seq_len,
          softmaxWeight (attnScore q kc head_dim) seq_len t * vc (t * head_dim + i) := by
    intro i
    unfold attention
    rw [if_neg (by omega : ¬ seq_len = 0)]
    exact congrFun (attentionRun_eq (attnScore q kc head_dim)
      (fun t i => vc (t * head_dim + i)) seq_len hs) i
  have hsum1 : ∑ t ∈ Finset.range seq_len,
      softmaxWeight (attnScore q kc head_dim) seq_len t = 1 := by
    simp only [softmaxWeight]
    rw [← Finset.sum_div, div_self (ne_of_gt hDpos)]
  refine ⟨fun i => hmain i, fun t ht => ⟨?_, ?_⟩, hsum1, ?_⟩
  · rw [softmaxWeight]
    exact div_nonneg (Real.exp_pos _).le hDpos.le
  · rw [softmaxWeight, div_le_one hDpos]
    have hsingle : ∀ g : ℕ → ℝ, (∀ j, 0 ≤ g j) → ∀ t2 ∈ Finset.range seq_len,
        g t2 ≤ ∑ j ∈ Finset.range seq_len, g j := by
      intro g hg t2 ht2
      exact Finset.single_le_sum (fun j _ => hg j) ht2
    exact hsingle
      (fun j => Real.exp (attnScore q kc head_dim j
        - maxScore (attnScore q kc head_dim) seq_len))
      (fun j => (Real.exp_pos _).le) t (Finset.mem_range.mpr ht)
  · intro cv hcv i hi
    rw [hmain i]
    have hcongr : ∀ t ∈ Finset.range seq_len,
        softmaxWeight (attnScore q kc head_dim) seq_len t * vc (t * head_dim + i)
          = softmaxWeight (attnScore q kc head_dim) seq_len t * cv i :=
      fun t ht => by rw [hcv t (Finset.mem_range.mp ht) i hi]
    rw [Finset.sum_congr rfl hcongr, ← Finset.sum_mul, hsum1, one_mul]

/-- C1 witness: at seq_len 1 and head_dim 1 with zero inputs the softmax
weights of the kernel sum to 1. -/
theorem attention_eq_twoPass_witness :
    (1 : ℕ) ≤ 1 ∧
    ∑ t ∈ Finset.range 1,
      softmaxWeight (attnScore (fun _ => 0) (fun _ => 0) 1) 1 t = 1 :=
  ⟨le_refl 1, (attention_eq_twoPass (fun _ => 0) (fun _ => 0) (fun _ => 0) 1 1
    (le_refl 1) (le_refl 1)).2.2.1⟩

/-- C3: with seq_len 0, both kernels return the all-zero output, whatever
the query, caches, dimensions and strides are. -/
theorem attention_empty_seq (q kc vc : ℕ → ℝ)
    (head_dim kv_stride k_base v_base i : ℕ) :
    attention q kc vc 0 head_dim i = 0 ∧
    attention_strided q kc vc 0 head_dim kv_stride k_base v_base i = 0 := by
  constructor
  · simp [attention]
  · simp [attention_strided]

/-- The contiguous per-head view of an interleaved cache: row t of kv head
kv_head, living at t * kv_stride + kv_head * head_dim in the interleaved
layout, becomes row t of a contiguous single-head cache. -/
noncomputable def deinterleave (f : ℕ → ℝ) (kv_head head_dim kv_stride : ℕ) : ℕ → ℝ :=
  fun j => f ((j / head_dim) * kv_stride + kv_head * head_dim + j % head_dim)

lemma attentionLoop_congr (s1 s2 : ℕ → ℝ) (v1 v2 : ℕ → ℕ → ℝ) (d : ℕ)
    (hs : ∀ t, s1 t = s2 t) (hv : ∀ t, ∀ i < d, v1 t i = v2 t i) :
    ∀ n, (attentionLoop s1 v1 n).running_max = (attentionLoop s2 v2 n).running_max ∧
      (attentionLoop s1 v1 n).running_sum = (attentionLoop s2 v2 n).running_sum ∧
      ∀ i < d, (attentionLoop s1 v1 n).out i = (attentionLoop s2 v2 n).out i := by
  intro n
  induction n with
  | zero => exact ⟨rfl, rfl, fun i _ => rfl⟩
  | succ n ih =>
    obtain ⟨ihm, ihs, iho⟩ := ih
    refine ⟨?_, ?_, fun i hi => ?_⟩
    · show (attentionStep s1 v1 n (attentionLoop s1 v1 n)).running_max
        = (attentionStep s2 v2 n (attentionLoop s2 v2 n)).running_max
      simp only [attentionStep, ihm, hs n]
    · show (attentionStep s1 v1 n (attentionLoop s1 v1 n)).running_sum
        = (attentionStep s2 v2 n (attentionLoop s2 v2 n)).running_sum
      simp only [attentionStep, ihm, ihs, hs n]
    · show (attentionStep s1 v1 n (attentionLoop s1 v1 n)).out i
        = (attentionStep s2 v2 n (attentionLoop s2 v2 n)).out i
      simp only [attentionStep, ihm, hs n]
      rw [iho i hi, hv n i hi]

lemma attention_strided_deinterleave (q kc vc : ℕ → ℝ)
    (seq_len head_dim kv_stride kv_head : ℕ) (hd : 0 < head_dim) :
    ∀ i < head_dim,
      attention_strided q kc vc seq_len head_dim kv_stride
          (kv_head * head_dim) (kv_head * head_dim) i
        = attention q (deinterleave kc kv_head head_dim kv_stride)
            (deinterleave vc kv_head head_dim kv_stride) seq_len head_dim i := by
  intro i hi
  have hindex : ∀ t j, j < head_dim →
      (t * head_dim + j) / head_dim * kv_stride + kv_head * head_dim
          + (t * head_dim + j) % head_dim
        = t * kv_stride + kv_head * head_dim + j := by
    intro t j hj
    have hdiv : (t * head_dim + j) / head_dim = t := by
      rw [Nat.mul_comm t head_dim, Nat.mul_add_div hd, Nat.div_eq_of_lt hj]
      omega
    have hmod : (t * head_dim + j) % head_dim = j := by
      rw [Nat.mul_comm t head_dim, Nat.mul_add_mod]
      exact Nat.mod_eq_of_lt hj
    rw [hdiv, hmod]
  have hsc : ∀ t, attnScoreStrided q kc head_dim kv_stride (kv_head * head_dim) t
      = attnScore q (deinterleave kc kv_head head_dim kv_stride) head_dim t := by
    intro t
    unfold attnScore attnScoreStrided deinterleave
    congr 1
    refine Finset.sum_congr rfl fun j hj => ?_
    rw [hindex t j (Finset.mem_range.mp hj)]
  have hvv : ∀ t, ∀ j < head_dim,
      vc (t * kv_stride + kv_head * head_dim + j)
        = deinterleave vc kv_head head_dim kv_stride (t * head_dim + j) := by
    intro t j hj
    unfold deinterleave
    rw [hindex t j hj]
  obtain ⟨cm, cs, co⟩ := attentionLoop_congr
    (attnScoreStrided q kc head_dim kv_stride (kv_head * head_dim))
    (attnScore q (deinterleave kc kv_head head_dim kv_stride) head_dim)
    (fun t j => vc (t * kv_stride + kv_head * head_dim + j))
    (fun t j => deinterleave vc kv_head head_dim kv_stride (t * head_dim + j))
    head_dim hsc hvv seq_len
  unfold attention attention_strided
  rcases Nat.eq_zero_or_pos seq_len with h0 | h0
  · rw [if_pos h0, if_pos h0]
  · rw [if_neg (by omega : ¬ seq_len = 0), if_neg (by omega : ¬ seq_len = 0)]
    simp only [cs]
    split_ifs with hpos
    · simp only []
      rw [co i hi]
    · exact co i hi

/-- C5: in multi_head_attention, query head h runs the strided kernel
against key/value head h / gqa_ratio with per-position stride
n_kv_heads * head_dim and base offset (h / gqa_ratio) * head_dim; and with
n_heads = n_kv_heads the output segment of each head equals the contiguous
single-head kernel on the de-interleaved cache of kv head h. -/
theorem multi_head_attention_gqa (q kc vc : ℕ → ℝ)
    (n_heads n_kv_heads seq_len head_dim : ℕ)
    (hkv : 0 < n_kv_heads) (hdvd : n_kv_heads ∣ n_heads) (hd : 0 < head_dim) :
    (∀ h < n_heads, ∀ i < head_dim,
      multi_head_attention q kc vc n_heads n_kv_heads seq_len head_dim
          (h * head_dim + i)
        = attention_strided (fun i2 => q (h * head_dim + i2)) kc vc seq_len head_dim
            (n_kv_heads * head_dim) (h / (n_heads / n_kv_heads) * head_dim)
            (h / (n_heads / n_kv_heads) * head_dim) i) ∧
    (n_heads = n_kv_heads →
      ∀ h < n_heads, ∀ i < head_dim,
        multi_head_attention q kc vc n_heads n_kv_heads seq_len head_dim
            (h * head_dim + i)
          = attention (fun i2 => q (h * head_dim + i2))
              (deinterleave kc h head_dim (n_kv_heads * head_dim))
              (deinterleave vc h head_dim (n_kv_heads * head_dim))
              seq_len head_dim i) := by
  have hpart1 : ∀ h, ∀ i < head_dim,
      multi_head_attention q kc vc n_heads n_kv_heads seq_len head_dim
          (h * head_dim + i)
        = attention_strided (fun i2 => q (h * head_dim + i2)) kc vc seq_len head_dim
            (n_kv_heads * head_dim) (h / (n_heads / n_kv_heads) * head_dim)
            (h / (n_heads / n_kv_heads) * head_dim) i := by
    intro h i hi
    have hdiv : (h * head_dim + i) / head_dim = h := by
      rw [Nat.mul_comm h head_dim, Nat.mul_add_div hd, Nat.div_eq_of_lt hi]
      omega
    have hmod : (h * head_dim + i) % head_dim = i := by
      rw [Nat.mul_comm h head_dim, Nat.mul_add_mod]
      exact Nat.mod_eq_of_lt hi
    show attention_strided (fun i2 => q ((h * head_dim + i) / head_dim * head_dim + i2))
        kc vc seq_len head_dim (n_kv_heads * head_dim)
        ((h * head_dim + i) / head_dim / (n_heads / n_kv_heads) * head_dim)
        ((h * head_dim + i) / head_dim / (n_heads / n_kv_heads) * head_dim)
        ((h * head_dim + i) % head_dim) = _
    rw [hdiv, hmod]
  refine ⟨fun h _ i hi => hpart1 h i hi, fun heq h _ i hi => ?_⟩
  rw [hpart1 h i hi]
  have hone : n_heads / n_kv_heads = 1 := by
    rw [heq]
    exact Nat.div_self hkv
  rw [hone, Nat.div_one]
  exact attention_strided_deinterleave (fun i2 => q (h * head_dim + i2)) kc vc
    seq_len head_dim (n_kv_heads * head_dim) h hd i hi

/-- C5 witness: with one head, one kv head and head_dim 1, output element 0
is the strided kernel of head 0. -/
theorem multi_head_attention_gqa_witness :
    (0 : ℕ) < 1 ∧
    multi_head_attention (fun _ => 0) (fun _ => 0) (fun _ => 0) 1 1 0 1 0
      = attention_strided (fun i2 => (fun _ => (0 : ℝ)) (0 * 1 + i2)) (fun _ => 0)
          (fun _ => 0) 0 1 (1 * 1) (0 / (1 / 1) * 1) (0 / (1 / 1) * 1) 0 :=
  ⟨Nat.zero_lt_one,
    (multi_head_attention_gqa (fun _ => 0) (fun _ => 0) (fun _ => 0) 1 1 0 1
      Nat.zero_lt_one (dvd_refl 1) Nat.zero_lt_one).1 0 Nat.zero_lt_one 0
      Nat.zero_lt_one⟩

/-! The precomputed RoPE table of kv_cache.rs. Only the fields and the apply
operations matter for the out-of-range behaviour; the table contents stay
abstract real-valued functions over flat indices. -/

/-- The RopeTable record: flat cosine and sine tables of logical shape
max_seq_len rows by half_dim columns, plus both dimensions. -/
structure RopeTable where
  cos_table : ℕ → ℝ
  sin_table : ℕ → ℝ
  max_seq_len : ℕ
  half_dim : ℕ

/-- Apply RoPE at one position, mirroring RopeTable::apply: return the
vector unchanged when the position is at or beyond max_seq_len, otherwise
rotate each pair (j, j + head_dim / 2) by the tabulated angle, leaving any
trailing element of an odd head_dim untouched. -/
noncomputable def RopeTable.apply (rt : RopeTable) (vec : ℕ → ℝ)
    (pos head_dim : ℕ) : ℕ → ℝ :=
  if rt.max_seq_len ≤ pos then vec
  else
    fun j =>
      if j < head_dim / 2 then
        vec j * rt.cos_table (pos * rt.half_dim + j)
          - vec (j + head_dim / 2) * rt.sin_table (pos * rt.half_dim + j)
      else if j < head_dim / 2 + head_dim / 2 then
        vec (j - head_dim / 2) * rt.sin_table (pos * rt.half_dim + (j - head_dim / 2))
          + vec j * rt.cos_table (pos * rt.half_dim + (j - head_dim / 2))
      else vec j

/-- Apply RoPE to every head segment in turn, mirroring
RopeTable::apply_multi_head: head h rewrites the slice of indices
h * head_dim to h * head_dim + head_dim - 1 by apply. -/
noncomputable def RopeTable.apply_multi_head (rt : RopeTable) (vec : ℕ → ℝ)
    (pos : ℕ) : ℕ → ℕ → ℕ → ℝ
  | 0, _, j => vec j
  | h + 1, head_dim, j =>
    if h * head_dim ≤ j ∧ j < h * head_dim + head_dim then
      rt.apply (fun i2 => RopeTable.apply_multi_head rt vec pos h head_dim
        (h * head_dim + i2)) pos head_dim (j - h * head_dim)
    else RopeTable.apply_multi_head rt vec pos h head_dim j

/-- C8: for a position at or beyond max_seq_len, apply returns the vector
unchanged and apply_multi_head leaves every element of every head segment
unchanged; no error is signalled. -/
theorem rope_out_of_range (rt : RopeTable) (vec : ℕ → ℝ)
    (p n_heads head_dim : ℕ) (h : rt.max_seq_len ≤ p) :
    RopeTable.apply rt vec p head_dim = vec ∧
    ∀ j, RopeTable.apply_multi_head rt vec p n_heads head_dim j = vec j := by
  have h1 : ∀ w : ℕ → ℝ, RopeTable.apply rt w p head_dim = w := by
    intro w
    unfold RopeTable.apply
    rw [if_pos h]
  refine ⟨h1 vec, ?_⟩
  intro j
  induction n_heads generalizing j with
  | zero => rfl
  | succ hh ih =>
    show (if hh * head_dim ≤ j ∧ j < hh * head_dim + head_dim then
        RopeTable.apply rt (fun i2 => RopeTable.apply_multi_head rt vec p hh head_dim
          (hh * head_dim + i2)) p head_dim (j - hh * head_dim)
      else RopeTable.apply_multi_head rt vec p hh head_dim j) = vec j
    split_ifs with hcond
    · rw [h1 (fun i2 => RopeTable.apply_multi_head rt vec p hh head_dim
        (hh * head_dim + i2))]
      show RopeTable.apply_multi_head rt vec p hh head_dim
        (hh * head_dim + (j - hh * head_dim)) = vec j
      rw [ih (hh * head_dim + (j - hh * head_dim))]
      congr 1
      omega
    · exact ih j

/-- C8 witness: with an empty table (max_seq_len 0) every position is out of
range and apply returns its input unchanged. -/
theorem rope_out_of_range_witness :
    (RopeTable.mk (fun _ => 0) (fun _ => 0) 0 2).max_seq_len ≤ 3 ∧
    RopeTable.apply (RopeTable.mk (fun _ => 0) (fun _ => 0) 0 2)
        (fun _ => (1 : ℝ)) 3 4 = fun _ => (1 : ℝ) :=
  ⟨Nat.zero_le 3,
    (rope_out_of_range (RopeTable.mk (fun _ => 0) (fun _ => 0) 0 2)
      (fun _ => (1 : ℝ)) 3 2 4 (Nat.zero_le 3)).1⟩
